import Mathlib

/-!
Verification of the `signals` core of the signal-radar repository
(`src/signals.py`): text normalization (`normalize_keyword`), candidate
extraction (`extract_candidates_from_title`), scoring (`score_item`) and
the batch builder (`build_signal_candidates`).

Strings are modelled through their character lists.  Python regular
expression substitutions over single-character classes are modelled as
character maps; `re.sub(r"\s+", " ", s)` is modelled by an explicit
whitespace-run squeezer; the capitalized-run regex of the extractor is
modelled by an explicit scanner with greedy repetition and word-boundary
checks.  Python `dict` (insertion ordered) is modelled by an association
list that updates in place and appends new keys at the end.  Python
`set` is modelled by a duplicate-free list (all uses — `len`, `sorted`,
membership — are order independent).  The one failure point of the code
(`sorted` over a mixed `None`/`str` set of sources) is modelled by
`Except`: `build_signal_candidates` returns `Except.error ()` exactly
when the Python code would raise `TypeError`.
-/

namespace SignalRadar

/-! ### Character classes (ASCII model of the Python classes used) -/

def isPySpace (c : Char) : Bool :=
  c = ' ' || c = '\t' || c = '\n' || c = '\r' || c = Char.ofNat 11 || c = Char.ofNat 12

def isLowerAZ (c : Char) : Bool := 97 ≤ c.toNat && c.toNat ≤ 122

def isUpperAZ (c : Char) : Bool := 65 ≤ c.toNat && c.toNat ≤ 90

def isDigit09 (c : Char) : Bool := 48 ≤ c.toNat && c.toNat ≤ 57

def isLowerDigit (c : Char) : Bool := isLowerAZ c || isDigit09 c

/-- Word characters for the `\b` boundary of the extraction regex. -/
def isWordChar (c : Char) : Bool := isLowerAZ c || isUpperAZ c || isDigit09 c || c = '_'

/-- `str.lower` on one character (ASCII). -/
def pyLowerChar (c : Char) : Char := if isUpperAZ c then Char.ofNat (c.toNat + 32) else c

/-- `str.lower` on a whole string. -/
def pyLower (s : String) : String := String.mk (s.data.map pyLowerChar)

/-- The bracket and quote characters of the first substitution of
`normalize_keyword`: `[ ] ( ) { } < > " ' and curly double/single quotes`. -/
def bracketOrQuote (c : Char) : Bool :=
  decide (c ∈ ['[', ']', '(', ')', Char.ofNat 123, Char.ofNat 125,
               '<', '>', '\"', '\'', '“', '”', '‘', '’'])

/-- `re.sub(r"[\[\]\(\)\{\}<>\"'“”‘’]", " ", s)` on one character. -/
def sub1Char (c : Char) : Char := if bracketOrQuote c then ' ' else c

/-- The character class kept by `re.sub(r"[^a-z0-9\s\-]", " ", s)`. -/
def keepChar (c : Char) : Bool := isLowerAZ c || isDigit09 c || isPySpace c || c = '-'

/-- `re.sub(r"[^a-z0-9\s\-]", " ", s)` on one character. -/
def sub2Char (c : Char) : Char := if keepChar c then c else ' '

/-! ### Whitespace handling -/

/-- `str.strip()`: drop leading and trailing whitespace. -/
def pyStrip (l : List Char) : List Char :=
  ((l.dropWhile isPySpace).reverse.dropWhile isPySpace).reverse

/-- `re.sub(r"\s+", " ", s)`: replace each maximal whitespace run by a
single blank.  The boolean records whether the previous emitted position
was inside a whitespace run. -/
def squeezeWs : Bool → List Char → List Char
  | _, [] => []
  | true, c :: rest =>
    if isPySpace c then squeezeWs true rest else c :: squeezeWs false rest
  | false, c :: rest =>
    if isPySpace c then ' ' :: squeezeWs true rest else c :: squeezeWs false rest

/-- `normalize_keyword` of `signals.py` lines 10-15:
`s.strip().lower()`, bracket/quote substitution, non-`[a-z0-9\s-]`
substitution, whitespace collapse, final strip. -/
def normalize_keyword (s : String) : String :=
  String.mk (pyStrip (squeezeWs false
    ((((pyStrip s.data).map pyLowerChar).map sub1Char).map sub2Char)))

/-! ### `str.split()` (split on whitespace runs, dropping empties) -/

def splitWsAux (cur : List Char) : List Char → List (List Char)
  | [] => if cur.isEmpty then [] else [cur.reverse]
  | c :: rest =>
    if isPySpace c then
      if cur.isEmpty then splitWsAux [] rest else cur.reverse :: splitWsAux [] rest
    else splitWsAux (c :: cur) rest

def pySplitWs (l : List Char) : List (List Char) := splitWsAux [] l

/-! ### Substring test (`k in t` on Python strings) -/

def listStartsWith : List Char → List Char → Bool
  | [], _ => true
  | _ :: _, [] => false
  | a :: as, b :: bs => a = b && listStartsWith as bs

def pySubstrL (n : List Char) : List Char → Bool
  | [] => n.isEmpty
  | c :: rest => listStartsWith n (c :: rest) || pySubstrL n rest

/-- Python `needle in hay` on strings. -/
def pySubstr (needle hay : String) : Bool := pySubstrL needle.data hay.data

/-! ### Data model (`Item`, rules, candidates) -/

/-- An input item.  The Python code reads items as dicts with
`it.get("title", "")`, `it.get("link", "")` and `it.get("source")`;
absent keys are modelled by `none`. -/
structure Item where
  source : Option String
  title : Option String
  link : Option String
deriving DecidableEq

/-- The rules mapping.  `rules.get("deny_keywords", [])` and
`rules.get("boost_keywords", [])` default to the empty list, so absent
keys are modelled by `[]`; `rules.get("score_threshold", 6)` defaults to
`6` inside the builder, so the key is modelled by an `Option`. -/
structure Rules where
  deny_keywords : List String := []
  boost_keywords : List String := []
  score_threshold : Option Int := none
deriving DecidableEq

/-- A raw candidate appended to `out` (`signals.py` lines 97-103). -/
structure Cand where
  keyword : String
  score : Int
  source : Option String
  evidence_title : String
  evidence_link : String
deriving DecidableEq

/-- A merged entry.  During the merge `sources` is the accumulated
duplicate-free list modelling the Python `set`; in the final output it
is the sorted rendering of that set. -/
structure MergedCandidate where
  keyword : String
  score : Int
  source : Option String
  evidence_title : String
  evidence_link : String
  sources : List (Option String)
deriving DecidableEq

/-! ### Scorer (`score_item`, lines 48-70) -/

/-- The deny-veto condition: some (lowercased) deny keyword is a
substring of the lowercased text. -/
def denyHit (text : String) (rules : Rules) : Bool :=
  (rules.deny_keywords.map pyLower).any (fun k => pySubstr k (pyLower text))

/-- The cumulative boost: `+3` for each boost keyword contained in the
lowercased text. -/
def boostSum (t : String) (boost : List String) : Int :=
  boost.foldl (fun acc k => if pySubstr k t then acc + 3 else acc) 0

/-- `score_item` of `signals.py`: deny veto `-999`, otherwise `+3` per
boost keyword, `+2` for "play online"/"browser", `+4` for
"what game is this"/"name of the game". -/
def score_item (text : String) (rules : Rules) : Int :=
  if denyHit text rules then -999
  else
    boostSum (pyLower text) (rules.boost_keywords.map pyLower)
    + (if pySubstr "play online" (pyLower text) || pySubstr "browser" (pyLower text)
       then 2 else 0)
    + (if pySubstr "what game is this" (pyLower text) ||
          pySubstr "name of the game" (pyLower text)
       then 4 else 0)

/-! ### Extractor (`extract_candidates_from_title`, lines 17-46)

The regex `\b([A-Z][a-z0-9]+(?:\s+[A-Z0-9][a-z0-9]+){0,3})\b` is
modelled by an explicit scanner.  The greedy `+` runs never need
backtracking (the classes that follow each run are disjoint from the
run's class), so only the repetition count `{0,3}` is tried greedily
against the trailing word boundary. -/

/-- Match one repetition `\s+[A-Z0-9][a-z0-9]+`, returning the consumed
characters and the rest. -/
def repStep (l : List Char) : Option (List Char × List Char) :=
  let sp := l.takeWhile isPySpace
  let r1 := l.dropWhile isPySpace
  if sp.isEmpty then none
  else
    match r1 with
    | [] => none
    | c :: r2 =>
      if isUpperAZ c || isDigit09 c then
        let run := r2.takeWhile isLowerDigit
        let r3 := r2.dropWhile isLowerDigit
        if run.isEmpty then none else some (sp ++ c :: run, r3)
      else none

/-- All endpoints reachable with `0..n` further repetitions, in
increasing repetition order. -/
def capsEndpoints : Nat → List Char → List Char → List (List Char × List Char)
  | 0, acc, rest => [(acc, rest)]
  | n + 1, acc, rest =>
    (acc, rest) ::
      (match repStep rest with
       | none => []
       | some (con, r) => capsEndpoints n (acc ++ con) r)

/-- The trailing `\b`: the matched text always ends in a word character,
so the boundary holds iff the next character is absent or not a word
character. -/
def boundaryOk : List Char → Bool
  | [] => true
  | c :: _ => !(isWordChar c)

/-- Try the regex at the current position (the leading `\b` has already
been checked by the scanner).  Greedy: the largest repetition count
whose endpoint satisfies the trailing boundary wins. -/
def matchCapsAt : List Char → Option (List Char × List Char)
  | [] => none
  | c :: rest =>
    if isUpperAZ c then
      let run := rest.takeWhile isLowerDigit
      let r1 := rest.dropWhile isLowerDigit
      if run.isEmpty then none
      else (capsEndpoints 3 (c :: run) r1).reverse.find? (fun p => boundaryOk p.2)
    else none

/-- `re.findall` scanner: advance one character at a time; a match may
only start where the previous character is not a word character (the
leading `\b`); after a match, scanning resumes at its end.  Every call
consumes at least one character, so `length + 1` fuel always suffices. -/
def scanCapsGo : Nat → Bool → List Char → List (List Char)
  | 0, _, _ => []
  | _ + 1, _, [] => []
  | fuel + 1, prevWord, c :: rest =>
    if prevWord then scanCapsGo fuel (isWordChar c) rest
    else
      match matchCapsAt (c :: rest) with
      | some (m, r) => m :: scanCapsGo fuel true r
      | none => scanCapsGo fuel (isWordChar c) rest

def scanCaps (l : List Char) : List (List Char) := scanCapsGo (l.length + 1) false l

/-- Order-preserving deduplication keeping first occurrences
(`seen`-set loop of lines 38-45). -/
def dedupAux (seen : List String) : List String → List String
  | [] => []
  | x :: xs => if x ∈ seen then dedupAux seen xs else x :: dedupAux (x :: seen) xs

def dedupKeepFirst (l : List String) : List String := dedupAux [] l

/-- `extract_candidates_from_title` of `signals.py`: the cleaned whole
title as fallback, then each capitalized run (normalized, kept when at
least 3 characters), deduplicated. -/
def extract_candidates_from_title (title : String) : List String :=
  if title = "" then []
  else
    let base := normalize_keyword title
    let baseList := if base = "" then [] else [base]
    let caps := (scanCaps title.data).map (fun l => normalize_keyword (String.mk l))
    dedupKeepFirst (baseList ++ caps.filter (fun cc => decide (cc ≠ "" ∧ 3 ≤ cc.length)))

/-! ### Builder (`build_signal_candidates`, lines 72-126) -/

def STOPWORDS : List String :=
  ["the", "a", "an", "and", "or", "to", "of", "in", "on", "for", "with",
   "this", "that", "is", "are", "was", "were", "game", "games", "play"]

/-- The tokens of a keyword that survive the stopword filter
(line 93): `kw.split()` minus `STOPWORDS`. -/
def keywordTokens (kw : String) : List String :=
  ((pySplitWs kw.data).map String.mk).filter (fun x => decide (x ∉ STOPWORDS))

/-- The keywords an item contributes to `out` (lines 82-95): nothing
when the score is negative, otherwise the extracted candidates that are
at least 6 characters long and keep at least one non-stopword token. -/
def candKeywords (it : Item) (rules : Rules) : List String :=
  let title := it.title.getD ""
  if score_item title rules < 0 then []
  else
    (extract_candidates_from_title title).filter
      (fun kw => decide (6 ≤ kw.length ∧ keywordTokens kw ≠ []))

/-- The raw candidate built for one keyword of one item (lines 97-103);
`evidence_title` is `title[:160]`. -/
def mkCand (it : Item) (rules : Rules) (kw : String) : Cand :=
  let title := it.title.getD ""
  { keyword := kw
    score := score_item title rules
    source := it.source
    evidence_title := String.mk (title.data.take 160)
    evidence_link := it.link.getD "" }

/-- The flat list `out` of raw candidates over the whole batch. -/
def rawCandidates (items : List Item) (rules : Rules) : List Cand :=
  items.flatMap (fun it => (candKeywords it rules).map (mkCand it rules))

/-! #### Merge (lines 106-114) -/

/-- Python `set.add` on the duplicate-free source list. -/
def addSource (ss : List (Option String)) (s : Option String) : List (Option String) :=
  if s ∈ ss then ss else ss ++ [s]

/-- First candidate of a keyword group: `{**c, "sources": {c["source"]}}`. -/
def initEntry (c : Cand) : MergedCandidate :=
  { keyword := c.keyword, score := c.score, source := c.source,
    evidence_title := c.evidence_title, evidence_link := c.evidence_link,
    sources := [c.source] }

/-- Later candidate of an existing group: always accumulate the source;
overwrite the metadata only when the new score is strictly greater
(line 113: `c["score"] > merged[k]["score"]`). -/
def updateEntry (e : MergedCandidate) (c : Cand) : MergedCandidate :=
  if e.score < c.score then
    { keyword := c.keyword, score := c.score, source := c.source,
      evidence_title := c.evidence_title, evidence_link := c.evidence_link,
      sources := addSource e.sources c.source }
  else { e with sources := addSource e.sources c.source }

/-- Insert one candidate into the insertion-ordered association list
modelling the `merged` dict: update the entry with the same keyword in
place, or append a fresh entry at the end. -/
def insertCand : List MergedCandidate → Cand → List MergedCandidate
  | [], c => [initEntry c]
  | e :: es, c =>
    if e.keyword = c.keyword then updateEntry e c :: es else e :: insertCand es c

/-- The merge loop of lines 106-114. -/
def mergeRaw (cs : List Cand) : List MergedCandidate := cs.foldl insertCand []

/-! #### Finalization (lines 115-122) -/

/-- Lexicographic (code point) order on character lists, as Python
compares strings. -/
def lexLe : List Char → List Char → Bool
  | [], _ => true
  | _ :: _, [] => false
  | a :: as, b :: bs => if a = b then lexLe as bs else decide (a < b)

/-- Python `<=` on the elements of a source set; comparisons involving
`None` raise in Python and never happen on the sorted path. -/
def optLexLe (a b : Option String) : Bool :=
  match a, b with
  | some x, some y => lexLe x.data y.data
  | none, _ => true
  | _, none => false

def insertAsc (x : Option String) : List (Option String) → List (Option String)
  | [] => [x]
  | y :: ys => if optLexLe y x then y :: insertAsc x ys else x :: y :: ys

def sortOptAsc (l : List (Option String)) : List (Option String) :=
  l.foldl (fun acc x => insertAsc x acc) []

/-- `sorted(list(v["sources"]))` (line 117).  Python's `sorted` raises
`TypeError` as soon as it compares `None` with a string, which on a
duplicate-free list happens exactly when the list has at least two
elements and one of them is `None`. -/
def pySortSources (l : List (Option String)) : Except Unit (List (Option String)) :=
  if l.length ≤ 1 then Except.ok l
  else if l.any (fun x => x.isNone) then Except.error ()
  else Except.ok (sortOptAsc l)

/-- Finalize one merged entry (lines 117-122): sort the source set,
add the cross-source bonus `+2` when it has at least two elements, then
keep the entry iff the bonus-adjusted score reaches the threshold. -/
def finalizeEntry (thr : Int) (e : MergedCandidate) :
    Except Unit (Option MergedCandidate) :=
  match pySortSources e.sources with
  | Except.error _ => Except.error ()
  | Except.ok ss =>
    let sc := if 2 ≤ ss.length then e.score + 2 else e.score
    Except.ok (if thr ≤ sc then some { e with score := sc, sources := ss } else none)

/-- The loop of lines 116-122 building `final`. -/
def finalizePass (thr : Int) : List MergedCandidate → Except Unit (List MergedCandidate)
  | [] => Except.ok []
  | e :: es =>
    match finalizeEntry thr e, finalizePass thr es with
    | Except.error _, _ => Except.error ()
    | _, Except.error _ => Except.error ()
    | Except.ok oe, Except.ok rest =>
      Except.ok (match oe with | some f => f :: rest | none => rest)

/-! #### Final sort (line 125)

`final.sort(key=lambda x: x["score"], reverse=True)` is a stable
descending sort.  It is modelled by a left-to-right insertion sort that
places each element after every already-placed element of score `≥`
its own, which yields exactly the stable descending ordering. -/

def insertByScore (c : MergedCandidate) : List MergedCandidate → List MergedCandidate
  | [] => [c]
  | y :: ys => if c.score ≤ y.score then y :: insertByScore c ys else c :: y :: ys

def sortByScoreDesc (l : List MergedCandidate) : List MergedCandidate :=
  l.foldl (fun acc c => insertByScore c acc) []

/-- `build_signal_candidates` of `signals.py`:
extract-and-score into `out`, merge by keyword, finalize (source sort,
cross-source bonus, threshold), sort by descending score.  The result
is `Except.error ()` exactly when the Python code raises. -/
def build_signal_candidates (items : List Item) (rules : Rules) :
    Except Unit (List MergedCandidate) :=
  match finalizePass (rules.score_threshold.getD 6)
      (mergeRaw (rawCandidates items rules)) with
  | Except.error _ => Except.error ()
  | Except.ok final => Except.ok (sortByScoreDesc final)

/-! ### The example batch of the specification (§7) -/

def exItems : List Item :=
  [{ source := some "reddit",
     title := some "What game is this? Crazy Cattle 3D looks amazing",
     link := some "L1" },
   { source := some "youtube",
     title := some "Crazy Cattle 3D gameplay - play online browser game",
     link := some "L2" }]

def exRules : Rules :=
  { deny_keywords := [], boost_keywords := ["cattle"], score_threshold := some 6 }

/-- The top entry the code produces on the example batch. -/
def exTop : MergedCandidate :=
  { keyword := "crazy cattle", score := 9, source := some "reddit",
    evidence_title := "What game is this? Crazy Cattle 3D looks amazing",
    evidence_link := "L1",
    sources := [some "reddit", some "youtube"] }

/-- The whole-title fallback entry of the example batch. -/
def exBase : MergedCandidate :=
  { keyword := "what game is this crazy cattle 3d looks amazing", score := 7,
    source := some "reddit",
    evidence_title := "What game is this? Crazy Cattle 3D looks amazing",
    evidence_link := "L1",
    sources := [some "reddit"] }

/-- The output the code actually produces on the example batch. -/
def exResult : List MergedCandidate := [exTop, exBase]

/-- C2: on the spec's example batch the claim fails in the code: the
capitalized-run regex sub-pattern `[A-Z0-9][a-z0-9]+` cannot match the
word "3D" (uppercase after the digit), so the candidate extracted from
both titles is "crazy cattle", not "crazy cattle 3d".  The top-ranked
entry is "crazy cattle" with the claimed sources and final score 9,
while "crazy cattle 3d" appears nowhere in the output. -/
theorem C2_example_run :
    build_signal_candidates exItems exRules = Except.ok exResult ∧
    "crazy cattle 3d" ∉ exResult.map (fun e => e.keyword) ∧
    extract_candidates_from_title "What game is this? Crazy Cattle 3D looks amazing" =
      ["what game is this crazy cattle 3d looks amazing", "what", "crazy cattle"] ∧
    extract_candidates_from_title "Crazy Cattle 3D gameplay - play online browser game" =
      ["crazy cattle 3d gameplay - play online browser game", "crazy cattle"] := by
  refine ⟨by rfl, by decide, by decide, by decide⟩

/-- C3: a batch on which `build_signal_candidates` raises.  The first
item has no `source` key; `it.get("source")` yields `None`, both items
produce the keyword "monster hunter", and `sorted({None, "reddit"})`
raises `TypeError` in Python (modelled by `Except.error`). -/
theorem C3_crash_on_missing_source :
    build_signal_candidates
      [{ source := none, title := some "Monster Hunter", link := some "L1" },
       { source := some "reddit", title := some "Monster Hunter", link := some "L2" }]
      {} = Except.error () := by
  rfl

/-- C1 counterexample: two raw candidates with the same keyword and
equal scores but different metadata.  The claim says the later one wins
the tie; the code keeps the metadata of the first (line 113 uses a
strict `>`). -/
theorem C1_counterexample :
    mergeRaw
      [{ keyword := "elden ring", score := 6, source := some "reddit",
         evidence_title := "T1", evidence_link := "L1" },
       { keyword := "elden ring", score := 6, source := some "reddit",
         evidence_title := "T2", evidence_link := "L2" }] =
      [{ keyword := "elden ring", score := 6, source := some "reddit",
         evidence_title := "T1", evidence_link := "L1",
         sources := [some "reddit"] }] ∧
    ("T1", "L1") ≠ ("T2", "L2") := by
  exact ⟨by decide, by decide⟩

/-! ### C9: properties of the normalizer -/

/-- The output character set claimed for `normalize_keyword`. -/
def allowedChar (c : Char) : Bool := isLowerAZ c || isDigit09 c || c = ' ' || c = '-'

theorem map_id_on (l : List Char) (f : Char → Char) (h : ∀ c ∈ l, f c = c) :
    l.map f = l := by
  induction l with
  | nil => rfl
  | cons c rest ih =>
    simp only [List.map_cons, h c (by simp), ih fun d hd => h d (by simp [hd])]

theorem pyStrip_eq_rdrop (l : List Char) :
    pyStrip l = (l.dropWhile isPySpace).rdropWhile isPySpace := rfl

theorem pyStrip_isInfix (l : List Char) : pyStrip l <:+: l := by
  rw [pyStrip_eq_rdrop]
  exact (List.rdropWhile_prefix _ _).isInfix.trans (List.dropWhile_suffix _).isInfix

theorem dropWhile_pyStrip (l : List Char) :
    (pyStrip l).dropWhile isPySpace = pyStrip l := by
  rw [pyStrip_eq_rdrop]
  have hAself : (l.dropWhile isPySpace).dropWhile isPySpace = l.dropWhile isPySpace :=
    List.dropWhile_idempotent _ _
  obtain ⟨t, ht⟩ := List.rdropWhile_prefix isPySpace (l.dropWhile isPySpace)
  cases hB : (l.dropWhile isPySpace).rdropWhile isPySpace with
  | nil => simp
  | cons b bs =>
    rw [hB] at ht
    have hAcons : l.dropWhile isPySpace = b :: (bs ++ t) := by rw [← ht]; simp
    have hb : isPySpace b = false := by
      by_contra hb
      simp only [Bool.not_eq_false] at hb
      rw [hAcons, List.dropWhile_cons, hb, if_pos rfl] at hAself
      have hlen := congrArg List.length hAself
      have hle := (List.dropWhile_sublist (l := bs ++ t) (p := isPySpace)).length_le
      simp only [List.length_cons] at hlen
      omega
    simp [List.dropWhile_cons, hb]

theorem pyStrip_idem (l : List Char) : pyStrip (pyStrip l) = pyStrip l := by
  rw [pyStrip_eq_rdrop (pyStrip l), dropWhile_pyStrip, pyStrip_eq_rdrop,
    List.rdropWhile_idempotent _ _]

/-- Two adjacent characters are never both whitespace. -/
def notBothSpace (a b : Char) : Prop := isPySpace a = false ∨ isPySpace b = false

theorem squeezeWs_nil (b : Bool) : squeezeWs b [] = [] := by cases b <;> rfl

theorem squeezeWs_cons_sp {c : Char} (h : isPySpace c = true) (b : Bool)
    (rest : List Char) :
    squeezeWs b (c :: rest) =
      if b then squeezeWs true rest else ' ' :: squeezeWs true rest := by
  cases b <;> simp [squeezeWs, h]

theorem squeezeWs_cons_ns {c : Char} (h : isPySpace c = false) (b : Bool)
    (rest : List Char) :
    squeezeWs b (c :: rest) = c :: squeezeWs false rest := by
  cases b <;> simp [squeezeWs, h]

theorem squeeze_mem {c : Char} : ∀ {l : List Char} {b : Bool}, c ∈ squeezeWs b l →
    c = ' ' ∨ (c ∈ l ∧ isPySpace c = false)
  | [], b, h => by simp [squeezeWs_nil] at h
  | d :: rest, b, h => by
    by_cases hd : isPySpace d = true
    · rw [squeezeWs_cons_sp hd] at h
      have hmem : c ∈ squeezeWs true rest ∨ c = ' ' := by
        cases b with
        | true => exact Or.inl (by simpa using h)
        | false =>
          simp only [if_neg (by simp : ¬(false = true)), List.mem_cons] at h
          rcases h with h | h
          · exact Or.inr h
          · exact Or.inl h
      rcases hmem with h2 | h2
      · rcases squeeze_mem h2 with h3 | ⟨h3, h4⟩
        · exact Or.inl h3
        · exact Or.inr ⟨List.mem_cons_of_mem _ h3, h4⟩
      · exact Or.inl h2
    · have hdf : isPySpace d = false := by simpa using hd
      rw [squeezeWs_cons_ns hdf] at h
      rcases List.mem_cons.mp h with h2 | h2
      · subst h2
        exact Or.inr ⟨List.mem_cons_self _ _, hdf⟩
      · rcases squeeze_mem h2 with h3 | ⟨h3, h4⟩
        · exact Or.inl h3
        · exact Or.inr ⟨List.mem_cons_of_mem _ h3, h4⟩

theorem squeeze_head_true : ∀ (l : List Char) (c : Char),
    (squeezeWs true l).head? = some c → isPySpace c = false
  | [], c, h => by simp [squeezeWs_nil] at h
  | d :: rest, c, h => by
    by_cases hd : isPySpace d = true
    · rw [squeezeWs_cons_sp hd, if_pos rfl] at h
      exact squeeze_head_true rest c h
    · have hdf : isPySpace d = false := by simpa using hd
      rw [squeezeWs_cons_ns hdf] at h
      simp only [List.head?_cons, Option.some.injEq] at h
      subst h
      exact hdf

theorem squeeze_chain : ∀ (l : List Char) (b : Bool),
    List.Chain' notBothSpace (squeezeWs b l)
  | [], b => by simp [squeezeWs_nil]
  | d :: rest, b => by
    by_cases hd : isPySpace d = true
    · rw [squeezeWs_cons_sp hd]
      cases b with
      | true => simpa using squeeze_chain rest true
      | false =>
        simp only [if_neg (by simp : ¬(false = true))]
        rw [List.chain'_cons']
        exact ⟨fun y hy => Or.inr (squeeze_head_true rest y hy), squeeze_chain rest true⟩
    · have hdf : isPySpace d = false := by simpa using hd
      rw [squeezeWs_cons_ns hdf, List.chain'_cons']
      exact ⟨fun y _ => Or.inl hdf, squeeze_chain rest false⟩

theorem squeeze_id : ∀ l : List Char, List.Chain' notBothSpace l →
    (∀ c ∈ l, isPySpace c = true → c = ' ') →
    squeezeWs false l = l ∧
      ((∀ c, l.head? = some c → isPySpace c = false) → squeezeWs true l = l)
  | [], _, _ => ⟨rfl, fun _ => rfl⟩
  | d :: rest, hch, hbl => by
    rw [List.chain'_cons'] at hch
    obtain ⟨hhd, hch2⟩ := hch
    have ih := squeeze_id rest hch2 fun c hc => hbl c (List.mem_cons_of_mem _ hc)
    by_cases hd : isPySpace d = true
    · refine ⟨?_, ?_⟩
      · rw [squeezeWs_cons_sp hd, if_neg (by simp : ¬(false = true))]
        have hrest : squeezeWs true rest = rest := by
          refine ih.2 fun c hc => ?_
          have hx := hhd c (by rw [hc]; rfl)
          rcases hx with h | h
          · rw [hd] at h; cases h
          · exact h
        rw [hrest, hbl d (List.mem_cons_self _ _) hd]
      · intro hhead
        have hx := hhead d rfl
        rw [hd] at hx; cases hx
    · have hdf : isPySpace d = false := by simpa using hd
      refine ⟨?_, fun _ => ?_⟩
      · rw [squeezeWs_cons_ns hdf, ih.1]
      · rw [squeezeWs_cons_ns hdf, ih.1]

theorem normalize_data (s : String) :
    (normalize_keyword s).data =
      pyStrip (squeezeWs false
        ((((pyStrip s.data).map pyLowerChar).map sub1Char).map sub2Char)) := rfl

/-- C9, charset half: every character of a normalized string is a
lowercase ASCII letter, a digit, a blank, or a hyphen. -/
theorem normalize_charset (s : String) :
    ∀ c ∈ (normalize_keyword s).data, allowedChar c = true := by
  intro c hc
  rw [normalize_data] at hc
  have hc2 := (pyStrip_isInfix _).subset hc
  rcases squeeze_mem hc2 with h | ⟨h1, h2⟩
  · subst h; decide
  · rcases List.mem_map.mp h1 with ⟨d, _, hd2⟩
    subst hd2
    by_cases hk : keepChar d = true
    · have hsub : sub2Char d = d := by unfold sub2Char; rw [hk]; simp
      rw [hsub] at h2 ⊢
      unfold keepChar at hk
      simp only [Bool.or_eq_true] at hk
      rcases hk with ((h | h) | h) | h
      · simp [allowedChar, h]
      · simp [allowedChar, h]
      · rw [h] at h2; cases h2
      · simp [allowedChar, h]
    · have hkf : keepChar d = false := by simpa using hk
      have hsub : sub2Char d = ' ' := by unfold sub2Char; rw [hkf]; simp
      rw [hsub]
      decide

theorem allowed_space_blank {c : Char} (h1 : allowedChar c = true)
    (h2 : isPySpace c = true) : c = ' ' := by
  unfold isPySpace at h2
  simp only [Bool.or_eq_true, decide_eq_true_eq] at h2
  rcases h2 with ((((h | h) | h) | h) | h) | h
  · exact h
  all_goals (subst h; exact absurd h1 (by decide))

theorem allowed_not_upper {c : Char} (h : allowedChar c = true) :
    isUpperAZ c = false := by
  unfold allowedChar at h
  simp only [Bool.or_eq_true, decide_eq_true_eq] at h
  rcases h with ((h | h) | h) | h
  · unfold isLowerAZ at h
    unfold isUpperAZ
    simp only [Bool.and_eq_true, decide_eq_true_eq] at h
    simp only [Bool.and_eq_false_iff, decide_eq_false_iff_not, Nat.not_le]
    right
    omega
  · unfold isDigit09 at h
    unfold isUpperAZ
    simp only [Bool.and_eq_true, decide_eq_true_eq] at h
    simp only [Bool.and_eq_false_iff, decide_eq_false_iff_not, Nat.not_le]
    left
    omega
  · subst h; decide
  · subst h; decide

theorem allowed_not_bq {c : Char} (h : allowedChar c = true) :
    bracketOrQuote c = false := by
  by_contra hb
  simp only [Bool.not_eq_false] at hb
  have hmem := of_decide_eq_true hb
  simp only [List.mem_cons, List.not_mem_nil, or_false] at hmem
  rcases hmem with rfl | rfl | rfl | rfl | rfl | rfl | rfl | rfl | rfl | rfl | rfl | rfl | rfl | rfl
  all_goals exact absurd h (by decide)

theorem allowed_keep {c : Char} (h : allowedChar c = true) : keepChar c = true := by
  unfold allowedChar at h
  unfold keepChar
  simp only [Bool.or_eq_true] at h ⊢
  rcases h with ((h | h) | h) | h
  · exact Or.inl (Or.inl (Or.inl h))
  · exact Or.inl (Or.inl (Or.inr h))
  · simp only [decide_eq_true_eq] at h
    subst h; left; right; decide
  · exact Or.inr h

/-- C9, idempotence half. -/
theorem normalize_idem (s : String) :
    normalize_keyword (normalize_keyword s) = normalize_keyword s := by
  have hset := normalize_charset s
  apply String.ext
  rw [normalize_data (normalize_keyword s)]
  have h0 : pyStrip (normalize_keyword s).data = (normalize_keyword s).data := by
    rw [normalize_data s]; exact pyStrip_idem _
  rw [h0]
  have h1 : (normalize_keyword s).data.map pyLowerChar = (normalize_keyword s).data := by
    refine map_id_on _ _ fun c hc => ?_
    unfold pyLowerChar
    rw [allowed_not_upper (hset c hc)]
    simp
  rw [h1]
  have h2 : (normalize_keyword s).data.map sub1Char = (normalize_keyword s).data := by
    refine map_id_on _ _ fun c hc => ?_
    unfold sub1Char
    rw [allowed_not_bq (hset c hc)]
    simp
  rw [h2]
  have h3 : (normalize_keyword s).data.map sub2Char = (normalize_keyword s).data := by
    refine map_id_on _ _ fun c hc => ?_
    unfold sub2Char
    rw [allowed_keep (hset c hc)]
    simp
  rw [h3]
  have hch : List.Chain' notBothSpace (normalize_keyword s).data := by
    rw [normalize_data s]
    exact List.Chain'.infix (squeeze_chain _ _) (pyStrip_isInfix _)
  have hbl : ∀ c ∈ (normalize_keyword s).data, isPySpace c = true → c = ' ' :=
    fun c hc hsp => allowed_space_blank (hset c hc) hsp
  rw [(squeeze_id _ hch hbl).1, h0]

/-- C9: the normalizer is idempotent and its output contains only
lowercase ASCII letters, digits, blanks and hyphens. -/
theorem C9_normalize_idempotent_charset (s : String) :
    normalize_keyword (normalize_keyword s) = normalize_keyword s ∧
    ∀ c ∈ (normalize_keyword s).data, allowedChar c = true :=
  ⟨normalize_idem s, normalize_charset s⟩

/-- C9 witness at a concrete string and character. -/
theorem C9_witness :
    normalize_keyword (normalize_keyword "Crazy  [Cattle] 3D!") =
      normalize_keyword "Crazy  [Cattle] 3D!" ∧ allowedChar 'c' = true :=
  ⟨(C9_normalize_idempotent_charset "Crazy  [Cattle] 3D!").1,
   (C9_normalize_idempotent_charset "Crazy  [Cattle] 3D!").2 'c' (by decide)⟩

/-! ### C10 and C5: properties of the scorer -/

theorem boost_foldl_ge (t : String) : ∀ (l : List String) (a : Int),
    a ≤ l.foldl (fun acc k => if pySubstr k t then acc + 3 else acc) a
  | [], a => le_refl a
  | k :: rest, a => by
    simp only [List.foldl_cons]
    refine le_trans ?_ (boost_foldl_ge t rest _)
    by_cases h : pySubstr k t = true
    · rw [if_pos h]; omega
    · rw [if_neg h]

theorem boostSum_nonneg (t : String) (boost : List String) : 0 ≤ boostSum t boost :=
  boost_foldl_ge t boost 0

theorem score_item_eq_deny {text : String} {rules : Rules}
    (h : denyHit text rules = true) : score_item text rules = -999 := by
  simp [score_item, h]

theorem score_item_nonneg {text : String} {rules : Rules}
    (h : denyHit text rules = false) : 0 ≤ score_item text rules := by
  unfold score_item
  rw [h]
  simp only [Bool.false_eq_true, if_false]
  have h1 := boostSum_nonneg (pyLower text) (rules.boost_keywords.map pyLower)
  by_cases h2 : (pySubstr "play online" (pyLower text) ||
      pySubstr "browser" (pyLower text)) = true <;>
    by_cases h3 : (pySubstr "what game is this" (pyLower text) ||
      pySubstr "name of the game" (pyLower text)) = true <;>
    simp [h2, h3] <;> omega

/-- C10: the scorer returns either exactly `-999` or a non-negative
integer, and it is negative exactly when a deny keyword matched, so the
builder test `s < 0` skips an item iff the deny veto fired. -/
theorem C10_score_range (text : String) (rules : Rules) :
    (score_item text rules = -999 ∨ 0 ≤ score_item text rules) ∧
    (score_item text rules < 0 ↔ denyHit text rules = true) := by
  by_cases h : denyHit text rules = true
  · rw [score_item_eq_deny h, h]
    refine ⟨Or.inl rfl, ?_⟩
    constructor
    · intro _; rfl
    · intro _; decide
  · have hf : denyHit text rules = false := by simpa using h
    have hnn := score_item_nonneg hf
    rw [hf]
    refine ⟨Or.inr hnn, ?_⟩
    constructor
    · intro hlt; omega
    · intro hx; cases hx

theorem candKeywords_deny {it : Item} {rules : Rules}
    (h : denyHit (it.title.getD "") rules = true) : candKeywords it rules = [] := by
  unfold candKeywords
  rw [if_pos]
  rw [score_item_eq_deny h]
  decide

theorem rawCandidates_cons (it : Item) (items : List Item) (rules : Rules) :
    rawCandidates (it :: items) rules =
      ((candKeywords it rules).map (mkCand it rules)) ++ rawCandidates items rules := by
  simp [rawCandidates]

theorem rawCandidates_filter_deny (items : List Item) (rules : Rules) :
    rawCandidates (items.filter fun it => !denyHit (it.title.getD "") rules) rules =
      rawCandidates items rules := by
  induction items with
  | nil => rfl
  | cons it rest ih =>
    rw [List.filter_cons]
    by_cases h : denyHit (it.title.getD "") rules = true
    · rw [h]
      simp only [Bool.not_true, Bool.false_eq_true, if_false]
      rw [ih, rawCandidates_cons, candKeywords_deny h]
      rfl
    · have hf : denyHit (it.title.getD "") rules = false := by simpa using h
      rw [hf]
      simp only [Bool.not_false, if_pos]
      rw [rawCandidates_cons, rawCandidates_cons, ih]

/-- C5: a deny-keyword match forces the sentinel score `-999`, and items
whose titles hit the deny veto contribute nothing to the build (removing
them from the batch leaves the output unchanged). -/
theorem C5_deny_veto (text : String) (rules : Rules) (items : List Item)
    (h : ∃ k ∈ rules.deny_keywords, pySubstr (pyLower k) (pyLower text) = true) :
    score_item text rules = -999 ∧
    build_signal_candidates (items.filter fun it => !denyHit (it.title.getD "") rules)
        rules =
      build_signal_candidates items rules := by
  constructor
  · apply score_item_eq_deny
    unfold denyHit
    rw [List.any_eq_true]
    obtain ⟨k, hk1, hk2⟩ := h
    exact ⟨pyLower k, List.mem_map_of_mem _ hk1, hk2⟩
  · unfold build_signal_candidates
    rw [rawCandidates_filter_deny]

/-- C5 witness: a concrete deny keyword, case-insensitively contained in
the text, vetoes it. -/
theorem C5_witness :
    score_item "play Gambling now" ⟨["gambling"], [], none⟩ = -999 ∧
    build_signal_candidates
        ([].filter fun it => !denyHit (it.title.getD "") ⟨["gambling"], [], none⟩)
        ⟨["gambling"], [], none⟩ =
      build_signal_candidates [] ⟨["gambling"], [], none⟩ :=
  C5_deny_veto "play Gambling now" ⟨["gambling"], [], none⟩ []
    ⟨"gambling", by decide, by decide⟩

/-! ### C1 and C4: characterization of the merge loop -/

theorem updateEntry_keyword (e : MergedCandidate) (c : Cand) (h : e.keyword = c.keyword) :
    (updateEntry e c).keyword = e.keyword := by
  unfold updateEntry
  split
  · exact h.symm
  · rfl

theorem updateEntry_sources (e : MergedCandidate) (c : Cand) :
    (updateEntry e c).sources = addSource e.sources c.source := by
  unfold updateEntry
  split <;> rfl

/-- The per-keyword content of the merge: the first candidate of the
group initializes the entry, later ones are folded in by `updateEntry`. -/
def groupFold : List Cand → Option MergedCandidate
  | [] => none
  | c :: g => some (g.foldl updateEntry (initEntry c))

theorem groupFold_append (g : List Cand) (c : Cand) :
    groupFold (g ++ [c]) =
      some (match groupFold g with
            | none => initEntry c
            | some e => updateEntry e c) := by
  cases g with
  | nil => rfl
  | cons d g2 => simp [groupFold, List.foldl_append]

theorem mergeRaw_append (cs : List Cand) (c : Cand) :
    mergeRaw (cs ++ [c]) = insertCand (mergeRaw cs) c := by
  unfold mergeRaw
  rw [List.foldl_append]
  rfl

theorem insertCand_cons_eq {e : MergedCandidate} {c : Cand}
    (h : e.keyword = c.keyword) (es : List MergedCandidate) :
    insertCand (e :: es) c = updateEntry e c :: es := by
  simp [insertCand, h]

theorem insertCand_cons_ne {e : MergedCandidate} {c : Cand}
    (h : ¬e.keyword = c.keyword) (es : List MergedCandidate) :
    insertCand (e :: es) c = e :: insertCand es c := by
  simp [insertCand, h]

/-- Association-list lookup by keyword (first entry wins, matching the
uniqueness of dict keys). -/
def lookupKw (k : String) : List MergedCandidate → Option MergedCandidate
  | [] => none
  | e :: es => if e.keyword = k then some e else lookupKw k es

theorem lookupKw_insertCand (m : List MergedCandidate) (c : Cand) (k : String) :
    lookupKw k (insertCand m c) =
      if c.keyword = k then
        match lookupKw k m with
        | none => some (initEntry c)
        | some e => some (updateEntry e c)
      else lookupKw k m := by
  induction m with
  | nil =>
    by_cases h : c.keyword = k
    · simp [insertCand, lookupKw, initEntry, h]
    · simp [insertCand, lookupKw, initEntry, h]
  | cons e es ih =>
    by_cases h1 : e.keyword = c.keyword
    · rw [insertCand_cons_eq h1]
      by_cases h2 : c.keyword = k
      · have hek : e.keyword = k := h1.trans h2
        have hue : (updateEntry e c).keyword = k := by
          rw [updateEntry_keyword e c h1]; exact hek
        rw [show lookupKw k (updateEntry e c :: es) = some (updateEntry e c) from by
            simp [lookupKw, hue],
          show lookupKw k (e :: es) = some e from by simp [lookupKw, hek],
          if_pos h2]
      · have hek : ¬(e.keyword = k) := fun he => h2 (h1.symm.trans he)
        have hue : ¬((updateEntry e c).keyword = k) := by
          rw [updateEntry_keyword e c h1]; exact hek
        rw [show lookupKw k (updateEntry e c :: es) = lookupKw k es from by
            simp [lookupKw, hue],
          show lookupKw k (e :: es) = lookupKw k es from by simp [lookupKw, hek],
          if_neg h2]
    · rw [insertCand_cons_ne h1]
      by_cases h2 : e.keyword = k
      · have hck : ¬(c.keyword = k) := fun hc => h1 (h2.trans hc.symm)
        rw [show lookupKw k (e :: insertCand es c) = some e from by simp [lookupKw, h2],
          if_neg hck,
          show lookupKw k (e :: es) = some e from by simp [lookupKw, h2]]
      · rw [show lookupKw k (e :: insertCand es c) = lookupKw k (insertCand es c) from by
            simp [lookupKw, h2],
          ih,
          show lookupKw k (e :: es) = lookupKw k es from by simp [lookupKw, h2]]

/-- The entry the merge stores under keyword `k` is exactly the fold of
the group of raw candidates carrying that keyword, in batch order. -/
theorem mergeRaw_lookupKw (cs : List Cand) (k : String) :
    lookupKw k (mergeRaw cs) =
      groupFold (cs.filter (fun c => decide (c.keyword = k))) := by
  induction cs using List.reverseRecOn with
  | nil => rfl
  | append_singleton cs c ih =>
    rw [mergeRaw_append, lookupKw_insertCand, List.filter_append]
    by_cases h : c.keyword = k
    · rw [if_pos h]
      have hc : List.filter (fun c => decide (c.keyword = k)) [c] = [c] := by
        simp [h]
      rw [hc, groupFold_append, ih]
      cases groupFold (cs.filter (fun c => decide (c.keyword = k))) <;> rfl
    · rw [if_neg h]
      have hc : List.filter (fun c => decide (c.keyword = k)) [c] = [] := by
        simp [h]
      rw [hc, List.append_nil, ih]

theorem insertCand_keywords (m : List MergedCandidate) (c : Cand) :
    (insertCand m c).map (fun e => e.keyword) =
      if c.keyword ∈ m.map (fun e => e.keyword) then m.map (fun e => e.keyword)
      else m.map (fun e => e.keyword) ++ [c.keyword] := by
  induction m with
  | nil => simp [insertCand, initEntry]
  | cons e es ih =>
    by_cases h1 : e.keyword = c.keyword
    · rw [insertCand_cons_eq h1]
      have hmem : c.keyword ∈ (e :: es).map (fun e => e.keyword) := by
        simp [h1.symm]
      rw [if_pos hmem]
      simp [updateEntry_keyword e c h1]
    · rw [insertCand_cons_ne h1]
      by_cases h2 : c.keyword ∈ es.map (fun e => e.keyword)
      · have hmem : c.keyword ∈ (e :: es).map (fun e => e.keyword) := by
          simp [h2]
        rw [if_pos hmem]
        simp only [List.map_cons]
        rw [ih, if_pos h2]
      · have hmem : ¬c.keyword ∈ (e :: es).map (fun e => e.keyword) := by
          simp only [List.map_cons, List.mem_cons]
          rintro (h | h)
          · exact h1 h.symm
          · exact h2 h
        rw [if_neg hmem]
        simp only [List.map_cons]
        rw [ih, if_neg h2]
        rfl

theorem mem_dedupAux {y : String} : ∀ {xs seen : List String},
    y ∈ dedupAux seen xs ↔ (y ∈ xs ∧ ¬y ∈ seen)
  | [], seen => by simp [dedupAux]
  | x :: rest, seen => by
    by_cases h : x ∈ seen
    · rw [show dedupAux seen (x :: rest) = dedupAux seen rest from by
        simp [dedupAux, h]]
      rw [mem_dedupAux]
      constructor
      · rintro ⟨h1, h2⟩
        exact ⟨List.mem_cons_of_mem _ h1, h2⟩
      · rintro ⟨h1, h2⟩
        rcases List.mem_cons.mp h1 with h3 | h3
        · subst h3; exact absurd h h2
        · exact ⟨h3, h2⟩
    · rw [show dedupAux seen (x :: rest) = x :: dedupAux (x :: seen) rest from by
        simp [dedupAux, h]]
      rw [List.mem_cons, mem_dedupAux]
      constructor
      · rintro (h1 | ⟨h1, h2⟩)
        · subst h1; exact ⟨List.mem_cons_self _ _, h⟩
        · refine ⟨List.mem_cons_of_mem _ h1, fun hc => h2 (List.mem_cons_of_mem _ hc)⟩
      · rintro ⟨h1, h2⟩
        by_cases h3 : y = x
        · exact Or.inl h3
        · rcases List.mem_cons.mp h1 with h4 | h4
          · exact absurd h4 h3
          · refine Or.inr ⟨h4, fun hc => ?_⟩
            rcases List.mem_cons.mp hc with h5 | h5
            · exact h3 h5
            · exact h2 h5

theorem dedupAux_nodup : ∀ (xs seen : List String), (dedupAux seen xs).Nodup
  | [], seen => by simp [dedupAux]
  | x :: rest, seen => by
    by_cases h : x ∈ seen
    · rw [show dedupAux seen (x :: rest) = dedupAux seen rest from by
        simp [dedupAux, h]]
      exact dedupAux_nodup rest seen
    · rw [show dedupAux seen (x :: rest) = x :: dedupAux (x :: seen) rest from by
        simp [dedupAux, h]]
      refine List.Nodup.cons ?_ (dedupAux_nodup rest (x :: seen))
      intro hc
      exact (mem_dedupAux.mp hc).2 (List.mem_cons_self _ _)

theorem dedupAux_append_one (x : String) : ∀ (xs seen : List String),
    dedupAux seen (xs ++ [x]) =
      dedupAux seen xs ++ (if x ∈ seen ∨ x ∈ xs then [] else [x])
  | [], seen => by
    by_cases h : x ∈ seen
    · simp [dedupAux, h]
    · simp [dedupAux, h]
  | y :: rest, seen => by
    by_cases h : y ∈ seen
    · rw [show (y :: rest) ++ [x] = y :: (rest ++ [x]) from rfl]
      rw [show dedupAux seen (y :: (rest ++ [x])) = dedupAux seen (rest ++ [x]) from by
        simp [dedupAux, h]]
      rw [show dedupAux seen (y :: rest) = dedupAux seen rest from by
        simp [dedupAux, h]]
      rw [dedupAux_append_one x rest seen]
      by_cases hx : x ∈ seen ∨ x ∈ rest
      · rw [if_pos hx, if_pos]
        rcases hx with hx | hx
        · exact Or.inl hx
        · exact Or.inr (List.mem_cons_of_mem _ hx)
      · rw [if_neg hx, if_neg]
        rintro (h1 | h1)
        · exact hx (Or.inl h1)
        · rcases List.mem_cons.mp h1 with h2 | h2
          · subst h2; exact hx (Or.inl h)
          · exact hx (Or.inr h2)
    · rw [show (y :: rest) ++ [x] = y :: (rest ++ [x]) from rfl]
      rw [show dedupAux seen (y :: (rest ++ [x])) =
          y :: dedupAux (y :: seen) (rest ++ [x]) from by simp [dedupAux, h]]
      rw [show dedupAux seen (y :: rest) = y :: dedupAux (y :: seen) rest from by
        simp [dedupAux, h]]
      rw [dedupAux_append_one x rest (y :: seen)]
      by_cases hx : x ∈ y :: seen ∨ x ∈ rest
      · rw [if_pos hx, if_pos]
        · simp
        · rcases hx with hx | hx
          · rcases List.mem_cons.mp hx with h2 | h2
            · subst h2; exact Or.inr (List.mem_cons_self _ _)
            · exact Or.inl h2
          · exact Or.inr (List.mem_cons_of_mem _ hx)
      · rw [if_neg hx, if_neg]
        · simp
        · rintro (h1 | h1)
          · exact hx (Or.inl (List.mem_cons_of_mem _ h1))
          · rcases List.mem_cons.mp h1 with h2 | h2
            · subst h2; exact hx (Or.inl (List.mem_cons_self _ _))
            · exact hx (Or.inr h2)

theorem dedupKeepFirst_append_one (xs : List String) (x : String) :
    dedupKeepFirst (xs ++ [x]) =
      dedupKeepFirst xs ++ (if x ∈ xs then [] else [x]) := by
  unfold dedupKeepFirst
  rw [dedupAux_append_one]
  simp

theorem mem_dedupKeepFirst {y : String} {xs : List String} :
    y ∈ dedupKeepFirst xs ↔ y ∈ xs := by
  unfold dedupKeepFirst
  rw [mem_dedupAux]
  simp

/-- The merged keywords are the raw keywords, deduplicated in
first-occurrence order. -/
theorem mergeRaw_keywords (cs : List Cand) :
    (mergeRaw cs).map (fun e => e.keyword) =
      dedupKeepFirst (cs.map (fun c => c.keyword)) := by
  induction cs using List.reverseRecOn with
  | nil => rfl
  | append_singleton cs c ih =>
    rw [mergeRaw_append, insertCand_keywords, ih, List.map_append, List.map_singleton,
      dedupKeepFirst_append_one]
    by_cases h : c.keyword ∈ cs.map (fun c => c.keyword)
    · rw [if_pos (mem_dedupKeepFirst.mpr h), if_pos h, List.append_nil]
    · rw [if_neg (fun hc => h (mem_dedupKeepFirst.mp hc)), if_neg h]

theorem mergeRaw_keywords_nodup (cs : List Cand) :
    ((mergeRaw cs).map (fun e => e.keyword)).Nodup := by
  rw [mergeRaw_keywords]
  exact dedupAux_nodup _ _

theorem lookupKw_of_mem_nodup_keys :
    ∀ (m : List MergedCandidate), ((m.map (fun e => e.keyword)).Nodup) →
      ∀ {e : MergedCandidate}, e ∈ m → lookupKw e.keyword m = some e
  | [], _, e, he => by cases he
  | f :: es, hnd, e, he => by
    rcases List.mem_cons.mp he with h | h
    · subst h
      simp [lookupKw]
    · have hne : ¬(f.keyword = e.keyword) := by
        intro hf
        have hmem : e.keyword ∈ es.map (fun e => e.keyword) :=
          List.mem_map_of_mem _ h
        rw [List.map_cons, List.nodup_cons] at hnd
        exact hnd.1 (hf ▸ hmem)
      rw [show lookupKw e.keyword (f :: es) = lookupKw e.keyword es from by
        simp [lookupKw, hne]]
      have hnd2 : ((es.map (fun e => e.keyword)).Nodup) := by
        rw [List.map_cons, List.nodup_cons] at hnd
        exact hnd.2
      exact lookupKw_of_mem_nodup_keys es hnd2 h

/-- Every entry of the merge result is the fold of its keyword group. -/
theorem mergeRaw_group {cs : List Cand} {e : MergedCandidate}
    (he : e ∈ mergeRaw cs) :
    groupFold (cs.filter (fun c => decide (c.keyword = e.keyword))) = some e := by
  rw [← mergeRaw_lookupKw]
  exact lookupKw_of_mem_nodup_keys _ (mergeRaw_keywords_nodup cs) he

theorem updateEntry_pos {e : MergedCandidate} {c : Cand} (h : e.score < c.score) :
    updateEntry e c =
      ⟨c.keyword, c.score, c.source, c.evidence_title, c.evidence_link,
        addSource e.sources c.source⟩ := by
  unfold updateEntry
  rw [if_pos h]

theorem updateEntry_neg {e : MergedCandidate} {c : Cand} (h : ¬(e.score < c.score)) :
    updateEntry e c = { e with sources := addSource e.sources c.source } := by
  unfold updateEntry
  rw [if_neg h]

theorem groupFold_none : ∀ {g : List Cand}, groupFold g = none → g = []
  | [], _ => rfl
  | _ :: _, h => by simp [groupFold] at h

/-- The first member of a candidate group having a given score. -/
def firstWithScore (v : Int) : List Cand → Option Cand
  | [] => none
  | c :: g => if c.score = v then some c else firstWithScore v g

theorem firstWithScore_append (v : Int) : ∀ (g1 g2 : List Cand),
    firstWithScore v (g1 ++ g2) =
      match firstWithScore v g1 with
      | some c => some c
      | none => firstWithScore v g2
  | [], g2 => rfl
  | c :: g1, g2 => by
    by_cases h : c.score = v
    · simp [firstWithScore, h]
    · simp only [List.cons_append]
      rw [show firstWithScore v (c :: (g1 ++ g2)) = firstWithScore v (g1 ++ g2) from by
          simp [firstWithScore, h],
        show firstWithScore v (c :: g1) = firstWithScore v g1 from by
          simp [firstWithScore, h]]
      exact firstWithScore_append v g1 g2

theorem firstWithScore_none {v : Int} : ∀ {g : List Cand},
    (∀ x ∈ g, ¬(x.score = v)) → firstWithScore v g = none
  | [], _ => rfl
  | c :: g, h => by
    rw [show firstWithScore v (c :: g) = firstWithScore v g from by
      simp [firstWithScore, h c (List.mem_cons_self _ _)]]
    exact firstWithScore_none fun x hx => h x (List.mem_cons_of_mem _ hx)

/-- The fold of a group keeps the maximal score, and its metadata is the
metadata of the first group member attaining that score. -/
theorem groupFold_max_first (g : List Cand) : ∀ (e : MergedCandidate),
    groupFold g = some e →
    (∀ c ∈ g, c.score ≤ e.score) ∧
    ∃ cStar, firstWithScore e.score g = some cStar ∧
      e.score = cStar.score ∧ e.source = cStar.source ∧
      e.evidence_title = cStar.evidence_title ∧
      e.evidence_link = cStar.evidence_link := by
  induction g using List.reverseRecOn with
  | nil => intro e h; cases h
  | append_singleton g c ih =>
    intro e h
    rw [groupFold_append] at h
    cases hg : groupFold g with
    | none =>
      have hgnil := groupFold_none hg
      subst hgnil
      rw [hg] at h
      have he : e = initEntry c := by
        simpa using h.symm
      subst he
      refine ⟨?_, c, ?_, rfl, rfl, rfl, rfl⟩
      · intro x hx
        have h1 : x = c := by simpa using hx
        subst h1
        exact le_refl _
      · simp [firstWithScore, initEntry]
    | some e0 =>
      rw [hg] at h
      have he : e = updateEntry e0 c := by simpa using h.symm
      obtain ⟨hbound, cStar, hfind, hsc, hsrc, htit, hlnk⟩ := ih e0 hg
      by_cases hlt : e0.score < c.score
      · rw [updateEntry_pos hlt] at he
        subst he
        refine ⟨?_, c, ?_, rfl, rfl, rfl, rfl⟩
        · intro x hx
          rcases List.mem_append.mp hx with h1 | h1
          · exact le_of_lt (lt_of_le_of_lt (hbound x h1) hlt)
          · rcases List.mem_cons.mp h1 with h2 | h2
            · subst h2; exact le_refl _
            · cases h2
        · rw [firstWithScore_append]
          have hnone : firstWithScore c.score g = none := by
            refine firstWithScore_none fun x hx hxe => ?_
            have := hbound x hx
            omega
          rw [hnone]
          simp [firstWithScore]
      · rw [updateEntry_neg hlt] at he
        subst he
        refine ⟨?_, cStar, ?_, hsc, hsrc, htit, hlnk⟩
        · intro x hx
          rcases List.mem_append.mp hx with h1 | h1
          · exact hbound x h1
          · rcases List.mem_cons.mp h1 with h2 | h2
            · subst h2; exact not_lt.mp hlt
            · cases h2
        · rw [firstWithScore_append]
          rw [show ({ e0 with sources := addSource e0.sources c.source }
              : MergedCandidate).score = e0.score from rfl, hfind]

/-- C1 (amended): an entry produced by the merge pass carries the
highest score of its keyword group, and its kept metadata (score,
source, evidence_title, evidence_link) comes from the FIRST candidate in
iteration order attaining that score — line 113 overwrites only on a
strictly greater score, so on ties the earlier candidate wins, not the
later one as the claim states. -/
theorem C1_merge_keeps_first_max (cs : List Cand) (e : MergedCandidate)
    (he : e ∈ mergeRaw cs) :
    (∀ c ∈ cs.filter (fun c => decide (c.keyword = e.keyword)), c.score ≤ e.score) ∧
    ∃ cStar, firstWithScore e.score
        (cs.filter (fun c => decide (c.keyword = e.keyword))) = some cStar ∧
      e.score = cStar.score ∧ e.source = cStar.source ∧
      e.evidence_title = cStar.evidence_title ∧
      e.evidence_link = cStar.evidence_link :=
  groupFold_max_first _ e (mergeRaw_group he)

def c1A : Cand := ⟨"elden ring", 6, some "reddit", "T1", "L1"⟩

def c1B : Cand := ⟨"elden ring", 6, some "reddit", "T2", "L2"⟩

def e1 : MergedCandidate := ⟨"elden ring", 6, some "reddit", "T1", "L1", [some "reddit"]⟩

/-- C1 witness: on a two-candidate group with tied scores the merge
output is characterized by the first candidate. -/
theorem C1_witness :
    (∀ c ∈ ([c1A, c1B].filter (fun c => decide (c.keyword = e1.keyword))),
        c.score ≤ e1.score) ∧
    ∃ cStar, firstWithScore e1.score
        ([c1A, c1B].filter (fun c => decide (c.keyword = e1.keyword))) = some cStar ∧
      e1.score = cStar.score ∧ e1.source = cStar.source ∧
      e1.evidence_title = cStar.evidence_title ∧
      e1.evidence_link = cStar.evidence_link :=
  C1_merge_keeps_first_max [c1A, c1B] e1 (by decide)

/-! ### Source accumulation, source sorting, and the final stable sort -/

theorem addSource_mem {ss : List (Option String)} {t s : Option String} :
    s ∈ addSource ss t ↔ s ∈ ss ∨ s = t := by
  unfold addSource
  by_cases h : t ∈ ss
  · rw [if_pos h]
    constructor
    · exact Or.inl
    · rintro (h1 | h1)
      · exact h1
      · subst h1; exact h
  · rw [if_neg h]
    simp

theorem addSource_nodup {ss : List (Option String)} {t : Option String}
    (h : ss.Nodup) : (addSource ss t).Nodup := by
  unfold addSource
  by_cases ht : t ∈ ss
  · rw [if_pos ht]; exact h
  · rw [if_neg ht]
    simp [List.nodup_append, h, ht]

/-- The fold of a group accumulates exactly the set of the group's
source tags, without duplicates. -/
theorem groupFold_sources (g : List Cand) : ∀ e : MergedCandidate,
    groupFold g = some e →
    (∀ s, s ∈ e.sources ↔ ∃ c ∈ g, c.source = s) ∧ e.sources.Nodup := by
  induction g using List.reverseRecOn with
  | nil => intro e h; cases h
  | append_singleton g c ih =>
    intro e h
    rw [groupFold_append] at h
    cases hg : groupFold g with
    | none =>
      have hgnil := groupFold_none hg
      subst hgnil
      rw [hg] at h
      have he : e = initEntry c := by simpa using h.symm
      subst he
      refine ⟨fun s => ?_, List.nodup_singleton _⟩
      simp [initEntry, eq_comm]
    | some e0 =>
      rw [hg] at h
      have he : e = updateEntry e0 c := by simpa using h.symm
      subst he
      obtain ⟨ihm, ihn⟩ := ih e0 hg
      rw [updateEntry_sources]
      refine ⟨fun s => ?_, addSource_nodup ihn⟩
      rw [addSource_mem]
      constructor
      · rintro (h1 | h1)
        · obtain ⟨c2, hc2, hc3⟩ := (ihm s).mp h1
          exact ⟨c2, List.mem_append_left _ hc2, hc3⟩
        · exact ⟨c, List.mem_append_right _ (List.mem_cons_self _ _), h1.symm⟩
      · rintro ⟨c2, hc2, hc3⟩
        rcases List.mem_append.mp hc2 with h1 | h1
        · exact Or.inl ((ihm s).mpr ⟨c2, h1, hc3⟩)
        · rcases List.mem_cons.mp h1 with h2 | h2
          · subst h2; exact Or.inr hc3.symm
          · cases h2

/-! #### Lexicographic order totality -/

theorem lexLe_total : ∀ (a b : List Char), lexLe a b = true ∨ lexLe b a = true
  | [], b => Or.inl (by cases b <;> rfl)
  | _ :: _, [] => Or.inr rfl
  | a :: as, b :: bs => by
    by_cases h : a = b
    · subst h
      rcases lexLe_total as bs with h1 | h1
      · left; simpa [lexLe] using h1
      · right; simpa [lexLe] using h1
    · have hne2 : ¬(b = a) := fun hb => h hb.symm
      have htot : a < b ∨ b < a := by
        rcases Nat.lt_trichotomy a.toNat b.toNat with h1 | h1 | h1
        · exact Or.inl h1
        · exact absurd (Char.ext (UInt32.eq_of_toBitVec_eq
            (BitVec.eq_of_toNat_eq h1))) h
        · exact Or.inr h1
      rcases htot with h1 | h1
      · left; simp [lexLe, h, h1]
      · right; simp [lexLe, hne2, h1]

theorem optLexLe_total (a b : Option String) :
    optLexLe a b = true ∨ optLexLe b a = true := by
  cases a with
  | none => exact Or.inl (by cases b <;> rfl)
  | some x =>
    cases b with
    | none => exact Or.inr rfl
    | some y => exact lexLe_total x.data y.data

/-! #### The insertion sort on sources -/

theorem insertAsc_perm (x : Option String) : ∀ l, List.Perm (insertAsc x l) (x :: l)
  | [] => List.Perm.refl _
  | y :: ys => by
    unfold insertAsc
    by_cases h : optLexLe y x = true
    · rw [if_pos h]
      exact ((insertAsc_perm x ys).cons y).trans (List.Perm.swap x y ys)
    · rw [if_neg h]

theorem insertAsc_head (x : Option String) : ∀ l : List (Option String),
    (insertAsc x l).head? = l.head? ∨ (insertAsc x l).head? = some x
  | [] => Or.inr rfl
  | y :: ys => by
    unfold insertAsc
    by_cases h : optLexLe y x = true
    · rw [if_pos h]; exact Or.inl rfl
    · rw [if_neg h]; exact Or.inr rfl

theorem insertAsc_chain (x : Option String) : ∀ l,
    List.Chain' (fun a b => optLexLe a b = true) l →
    List.Chain' (fun a b => optLexLe a b = true) (insertAsc x l)
  | [], _ => by simp [insertAsc]
  | y :: ys, h => by
    rw [List.chain'_cons'] at h
    obtain ⟨hhd, htl⟩ := h
    unfold insertAsc
    by_cases hyx : optLexLe y x = true
    · rw [if_pos hyx, List.chain'_cons']
      refine ⟨fun z hz => ?_, insertAsc_chain x ys htl⟩
      rcases insertAsc_head x ys with hh | hh
      · exact hhd z (by rw [← hh]; exact hz)
      · rw [hh] at hz
        have hxz : x = z := by simpa using hz
        subst hxz
        exact hyx
    · rw [if_neg hyx, List.chain'_cons']
      refine ⟨fun z hz => ?_, ?_⟩
      · have hzy : y = z := by simpa using hz
        subst hzy
        rcases optLexLe_total x y with h1 | h1
        · exact h1
        · exact absurd h1 hyx
      · rw [List.chain'_cons']
        exact ⟨hhd, htl⟩

theorem sortOptAsc_aux_perm : ∀ (l acc : List (Option String)),
    List.Perm (List.foldl (fun acc x => insertAsc x acc) acc l) (acc ++ l)
  | [], acc => by simp
  | x :: l, acc => by
    simp only [List.foldl_cons]
    refine (sortOptAsc_aux_perm l (insertAsc x acc)).trans ?_
    refine (((insertAsc_perm x acc).append_right l).trans ?_)
    exact (List.perm_middle).symm

theorem sortOptAsc_perm (l : List (Option String)) : List.Perm (sortOptAsc l) l := by
  have h := sortOptAsc_aux_perm l []
  simpa [sortOptAsc] using h

theorem sortOptAsc_aux_chain : ∀ (l acc : List (Option String)),
    List.Chain' (fun a b => optLexLe a b = true) acc →
    List.Chain' (fun a b => optLexLe a b = true)
      (List.foldl (fun acc x => insertAsc x acc) acc l)
  | [], _, h => h
  | x :: l, acc, h => by
    simp only [List.foldl_cons]
    exact sortOptAsc_aux_chain l _ (insertAsc_chain x acc h)

theorem sortOptAsc_chain (l : List (Option String)) :
    List.Chain' (fun a b => optLexLe a b = true) (sortOptAsc l) :=
  sortOptAsc_aux_chain l [] (by simp)

/-- Everything `pySortSources` guarantees on success: same members, same
length, no duplicates (from a duplicate-free input), sorted ascending. -/
theorem pySortSources_ok {l ss : List (Option String)}
    (h : pySortSources l = Except.ok ss) :
    (∀ s, s ∈ ss ↔ s ∈ l) ∧ ss.length = l.length ∧ (l.Nodup → ss.Nodup) ∧
      List.Chain' (fun a b => optLexLe a b = true) ss := by
  unfold pySortSources at h
  by_cases h1 : l.length ≤ 1
  · rw [if_pos h1] at h
    obtain rfl : l = ss := by simpa using h
    refine ⟨fun s => Iff.rfl, rfl, id, ?_⟩
    cases l with
    | nil => simp
    | cons x xs =>
      cases xs with
      | nil => simp
      | cons y ys => simp at h1
  · rw [if_neg h1] at h
    by_cases h2 : l.any (fun x => x.isNone) = true
    · rw [if_pos h2] at h
      cases h
    · rw [if_neg h2] at h
      obtain rfl : sortOptAsc l = ss := by simpa using h
      have hperm := sortOptAsc_perm l
      exact ⟨fun s => hperm.mem_iff, hperm.length_eq, fun hn => hperm.nodup_iff.mpr hn,
        sortOptAsc_chain l⟩

/-! #### The final stable descending sort -/

/-- Descending order on scores (the sort key of line 125). -/
def scoreGe (a b : MergedCandidate) : Prop := b.score ≤ a.score

theorem insertByScore_perm (c : MergedCandidate) : ∀ l, List.Perm (insertByScore c l) (c :: l)
  | [] => List.Perm.refl _
  | y :: ys => by
    unfold insertByScore
    by_cases h : c.score ≤ y.score
    · rw [if_pos h]
      exact ((insertByScore_perm c ys).cons y).trans (List.Perm.swap c y ys)
    · rw [if_neg h]

theorem insertByScore_head (c : MergedCandidate) : ∀ l : List MergedCandidate,
    (insertByScore c l).head? = l.head? ∨ (insertByScore c l).head? = some c
  | [] => Or.inr rfl
  | y :: ys => by
    unfold insertByScore
    by_cases h : c.score ≤ y.score
    · rw [if_pos h]; exact Or.inl rfl
    · rw [if_neg h]; exact Or.inr rfl

theorem insertByScore_chain (c : MergedCandidate) : ∀ l,
    List.Chain' scoreGe l → List.Chain' scoreGe (insertByScore c l)
  | [], _ => by simp [insertByScore]
  | y :: ys, h => by
    rw [List.chain'_cons'] at h
    obtain ⟨hhd, htl⟩ := h
    unfold insertByScore
    by_cases hcy : c.score ≤ y.score
    · rw [if_pos hcy, List.chain'_cons']
      refine ⟨fun z hz => ?_, insertByScore_chain c ys htl⟩
      rcases insertByScore_head c ys with hh | hh
      · exact hhd z (by rw [← hh]; exact hz)
      · rw [hh] at hz
        have hcz : c = z := by simpa using hz
        subst hcz
        exact hcy
    · rw [if_neg hcy, List.chain'_cons']
      refine ⟨fun z hz => ?_, ?_⟩
      · have hzy : y = z := by simpa using hz
        subst hzy
        unfold scoreGe
        omega
      · rw [List.chain'_cons']
        exact ⟨hhd, htl⟩

theorem sortByScoreDesc_aux_perm : ∀ (l acc : List MergedCandidate),
    List.Perm (List.foldl (fun acc c => insertByScore c acc) acc l) (acc ++ l)
  | [], acc => by simp
  | x :: l, acc => by
    simp only [List.foldl_cons]
    refine (sortByScoreDesc_aux_perm l (insertByScore x acc)).trans ?_
    refine ((insertByScore_perm x acc).append_right l).trans ?_
    exact (List.perm_middle).symm

theorem sortByScoreDesc_perm (l : List MergedCandidate) : List.Perm (sortByScoreDesc l) l := by
  have h := sortByScoreDesc_aux_perm l []
  simpa [sortByScoreDesc] using h

theorem sortByScoreDesc_chain (l : List MergedCandidate) :
    List.Chain' scoreGe (sortByScoreDesc l) := by
  unfold sortByScoreDesc
  have haux : ∀ (l acc : List MergedCandidate), List.Chain' scoreGe acc →
      List.Chain' scoreGe (List.foldl (fun acc c => insertByScore c acc) acc l) := by
    intro l
    induction l with
    | nil => exact fun acc h => h
    | cons x xs ih =>
      intro acc h
      simp only [List.foldl_cons]
      exact ih _ (insertByScore_chain x acc h)
  exact haux l [] (by simp)

theorem chain_desc_bound : ∀ (y : MergedCandidate) (ys : List MergedCandidate),
    List.Chain' scoreGe (y :: ys) → ∀ x ∈ y :: ys, x.score ≤ y.score
  | y, [], _, x, hx => by
    have : x = y := by simpa using hx
    subst this
    exact le_refl _
  | y, z :: zs, h, x, hx => by
    rw [List.chain'_cons] at h
    obtain ⟨hyz, h2⟩ := h
    rcases List.mem_cons.mp hx with h3 | h3
    · subst h3; exact le_refl _
    · have hzz := chain_desc_bound z zs h2 x h3
      unfold scoreGe at hyz
      omega

theorem filter_insertByScore {s : Int} (c : MergedCandidate) :
    ∀ l, List.Chain' scoreGe l →
    (insertByScore c l).filter (fun e => decide (e.score = s)) =
      (if c.score = s then
        l.filter (fun e => decide (e.score = s)) ++ [c]
      else l.filter (fun e => decide (e.score = s)))
  | [], _ => by
    by_cases h : c.score = s <;> simp [insertByScore, h]
  | y :: ys, hch => by
    have htl : List.Chain' scoreGe ys := (List.chain'_cons'.mp hch).2
    have hrec := filter_insertByScore (s := s) c ys htl
    unfold insertByScore
    by_cases hcy : c.score ≤ y.score
    · rw [if_pos hcy]
      by_cases hys : y.score = s
      · have hy : (fun e => decide (e.score = s)) y = true := by simp [hys]
        rw [List.filter_cons_of_pos (p := fun (e : MergedCandidate) => decide (e.score = s)) hy, hrec]
        by_cases hcs : c.score = s
        · rw [if_pos hcs, if_pos hcs, List.filter_cons_of_pos (p := fun (e : MergedCandidate) => decide (e.score = s)) hy]
          simp
        · rw [if_neg hcs, if_neg hcs, List.filter_cons_of_pos (p := fun (e : MergedCandidate) => decide (e.score = s)) hy]
      · have hy : ¬((fun e => decide (e.score = s)) y = true) := by simp [hys]
        rw [List.filter_cons_of_neg (p := fun (e : MergedCandidate) => decide (e.score = s)) hy, hrec]
        by_cases hcs : c.score = s
        · rw [if_pos hcs, if_pos hcs, List.filter_cons_of_neg (p := fun (e : MergedCandidate) => decide (e.score = s)) hy]
        · rw [if_neg hcs, if_neg hcs, List.filter_cons_of_neg (p := fun (e : MergedCandidate) => decide (e.score = s)) hy]
    · rw [if_neg hcy]
      by_cases hcs : c.score = s
      · rw [if_pos hcs]
        have hc : (fun e => decide (e.score = s)) c = true := by simp [hcs]
        rw [List.filter_cons_of_pos (p := fun (e : MergedCandidate) => decide (e.score = s)) hc]
        have hfe : (y :: ys).filter (fun e => decide (e.score = s)) = [] := by
          rw [List.filter_eq_nil_iff]
          intro x hx
          have hb := chain_desc_bound y ys hch x hx
          simp only [decide_eq_true_eq]
          omega
        rw [hfe]
        rfl
      · rw [if_neg hcs]
        have hc : ¬((fun e => decide (e.score = s)) c = true) := by simp [hcs]
        rw [List.filter_cons_of_neg (p := fun (e : MergedCandidate) => decide (e.score = s)) hc]

theorem sort_aux_filter {s : Int} : ∀ (l acc : List MergedCandidate),
    List.Chain' scoreGe acc →
    (List.foldl (fun acc c => insertByScore c acc) acc l).filter
        (fun e => decide (e.score = s)) =
      acc.filter (fun e => decide (e.score = s)) ++
        l.filter (fun e => decide (e.score = s))
  | [], acc, _ => by simp
  | c :: l, acc, h => by
    simp only [List.foldl_cons]
    rw [sort_aux_filter l (insertByScore c acc) (insertByScore_chain c acc h)]
    rw [filter_insertByScore c acc h]
    by_cases hcs : c.score = s
    · rw [if_pos hcs, List.filter_cons]
      simp [hcs]
    · rw [if_neg hcs, List.filter_cons]
      simp [hcs]

/-- The final sort is stable: within each score class the pre-sort order
is preserved exactly. -/
theorem sortByScoreDesc_filter (l : List MergedCandidate) (s : Int) :
    (sortByScoreDesc l).filter (fun e => decide (e.score = s)) =
      l.filter (fun e => decide (e.score = s)) := by
  unfold sortByScoreDesc
  rw [sort_aux_filter l [] (by simp)]
  simp

/-! ### C4, C6, C7, C8: the finalize pass and the build contract -/

theorem finalizeEntry_eq_ok {thr : Int} {e : MergedCandidate}
    {ss : List (Option String)} (hss : pySortSources e.sources = Except.ok ss) :
    finalizeEntry thr e = Except.ok
      (if thr ≤ (if 2 ≤ ss.length then e.score + 2 else e.score) then
        some { e with
                 score := (if 2 ≤ ss.length then e.score + 2 else e.score)
                 sources := ss }
      else none) := by
  unfold finalizeEntry
  rw [hss]

theorem finalizeEntry_some {thr : Int} {e f : MergedCandidate}
    (h : finalizeEntry thr e = Except.ok (some f)) :
    ∃ ss, pySortSources e.sources = Except.ok ss ∧ f.keyword = e.keyword ∧
      f.sources = ss ∧
      f.score = (if 2 ≤ ss.length then e.score + 2 else e.score) ∧
      f.source = e.source ∧ f.evidence_title = e.evidence_title ∧
      f.evidence_link = e.evidence_link ∧ thr ≤ f.score := by
  cases hss : pySortSources e.sources with
  | error u =>
    unfold finalizeEntry at h
    rw [hss] at h
    cases h
  | ok ss =>
    rw [finalizeEntry_eq_ok hss] at h
    by_cases hth : thr ≤ (if 2 ≤ ss.length then e.score + 2 else e.score)
    · rw [if_pos hth] at h
      have hf : ({ e with
                     score := (if 2 ≤ ss.length then e.score + 2 else e.score)
                     sources := ss } : MergedCandidate) = f := by
        simpa using h
      subst hf
      exact ⟨ss, rfl, rfl, rfl, rfl, rfl, rfl, rfl, hth⟩
    · rw [if_neg hth] at h
      simp at h

theorem finalizePass_mem {thr : Int} : ∀ {ms fl : List MergedCandidate},
    finalizePass thr ms = Except.ok fl →
    ∀ {f : MergedCandidate},
      (f ∈ fl ↔ ∃ m ∈ ms, finalizeEntry thr m = Except.ok (some f))
  | [], fl, h, f => by
    have hfl : fl = [] := by
      simpa [finalizePass] using h.symm
    subst hfl
    simp
  | e :: es, fl, h, f => by
    unfold finalizePass at h
    cases hfe : finalizeEntry thr e with
    | error u => rw [hfe] at h; simp at h
    | ok oe =>
      cases hfp : finalizePass thr es with
      | error u => rw [hfe, hfp] at h; simp at h
      | ok rest =>
        rw [hfe, hfp] at h
        have ih := finalizePass_mem hfp (f := f)
        cases oe with
        | some g =>
          have hfl : fl = g :: rest := by simpa using h.symm
          subst hfl
          simp only [List.mem_cons]
          constructor
          · rintro (h1 | h1)
            · subst h1
              exact ⟨e, Or.inl rfl, hfe⟩
            · obtain ⟨m, hm1, hm2⟩ := ih.mp h1
              exact ⟨m, Or.inr hm1, hm2⟩
          · rintro ⟨m, hm1, hm2⟩
            rcases hm1 with h2 | h2
            · subst h2
              rw [hfe] at hm2
              have hg : g = f := by simpa using hm2
              exact Or.inl hg.symm
            · exact Or.inr (ih.mpr ⟨m, h2, hm2⟩)
        | none =>
          have hfl : fl = rest := by simpa using h.symm
          subst hfl
          constructor
          · intro h1
            obtain ⟨m, hm1, hm2⟩ := ih.mp h1
            exact ⟨m, List.mem_cons_of_mem _ hm1, hm2⟩
          · rintro ⟨m, hm1, hm2⟩
            rcases List.mem_cons.mp hm1 with h2 | h2
            · subst h2
              rw [hfe] at hm2
              simp at hm2
            · exact ih.mpr ⟨m, h2, hm2⟩

theorem finalizePass_keywords {thr : Int} : ∀ {ms fl : List MergedCandidate},
    finalizePass thr ms = Except.ok fl →
    (fl.map (fun e => e.keyword)).Sublist (ms.map (fun e => e.keyword))
  | [], fl, h => by
    have hfl : fl = [] := by simpa [finalizePass] using h.symm
    subst hfl
    simp
  | e :: es, fl, h => by
    unfold finalizePass at h
    cases hfe : finalizeEntry thr e with
    | error u => rw [hfe] at h; simp at h
    | ok oe =>
      cases hfp : finalizePass thr es with
      | error u => rw [hfe, hfp] at h; simp at h
      | ok rest =>
        rw [hfe, hfp] at h
        have ih := finalizePass_keywords hfp
        cases oe with
        | some g =>
          have hfl : fl = g :: rest := by simpa using h.symm
          subst hfl
          obtain ⟨ss, _, hkw, _⟩ := finalizeEntry_some hfe
          simp only [List.map_cons]
          rw [hkw]
          exact ih.cons₂ e.keyword
        | none =>
          have hfl : fl = rest := by simpa using h.symm
          subst hfl
          simp only [List.map_cons]
          exact ih.cons e.keyword

theorem build_ok {items : List Item} {rules : Rules} {res : List MergedCandidate}
    (h : build_signal_candidates items rules = Except.ok res) :
    ∃ fl, finalizePass (rules.score_threshold.getD 6)
        (mergeRaw (rawCandidates items rules)) = Except.ok fl ∧
      res = sortByScoreDesc fl := by
  unfold build_signal_candidates at h
  cases hfp : finalizePass (rules.score_threshold.getD 6)
      (mergeRaw (rawCandidates items rules)) with
  | error u => rw [hfp] at h; simp at h
  | ok fl =>
    rw [hfp] at h
    exact ⟨fl, rfl, by simpa using h.symm⟩

theorem mkCand_keyword (it : Item) (rules : Rules) (kw : String) :
    (mkCand it rules kw).keyword = kw := rfl

theorem mkCand_source (it : Item) (rules : Rules) (kw : String) :
    (mkCand it rules kw).source = it.source := rfl

theorem rawCandidates_mem {items : List Item} {rules : Rules} {c : Cand} :
    c ∈ rawCandidates items rules ↔
      ∃ it ∈ items, ∃ kw ∈ candKeywords it rules, mkCand it rules kw = c := by
  unfold rawCandidates
  constructor
  · intro h
    obtain ⟨it, hit, hc⟩ := List.mem_flatMap.mp h
    obtain ⟨kw, hkw, hc2⟩ := List.mem_map.mp hc
    exact ⟨it, hit, kw, hkw, hc2⟩
  · rintro ⟨it, hit, kw, hkw, hc⟩
    exact List.mem_flatMap.mpr ⟨it, hit, List.mem_map.mpr ⟨kw, hkw, hc⟩⟩

/-- C6: every entry returned by build has a bonus-adjusted score at
least `rules.score_threshold` (defaulting silently to 6 when the key is
absent). -/
theorem C6_threshold_filter (items : List Item) (rules : Rules)
    (res : List MergedCandidate)
    (h : build_signal_candidates items rules = Except.ok res) :
    (∀ e ∈ res, rules.score_threshold.getD 6 ≤ e.score) ∧
    (rules.score_threshold = none → ∀ e ∈ res, (6 : Int) ≤ e.score) := by
  obtain ⟨fl, hfp, hres⟩ := build_ok h
  have hmain : ∀ e ∈ res, rules.score_threshold.getD 6 ≤ e.score := by
    intro e he
    have hfl : e ∈ fl := (sortByScoreDesc_perm fl).mem_iff.mp (hres ▸ he)
    obtain ⟨m, _, hm⟩ := (finalizePass_mem hfp).mp hfl
    obtain ⟨ss, _, _, _, _, _, _, _, hth⟩ := finalizeEntry_some hm
    exact hth
  refine ⟨hmain, fun hnone e he => ?_⟩
  have := hmain e he
  rw [hnone] at this
  simpa using this

theorem finalizePass_ok_entry {thr : Int} : ∀ {ms fl : List MergedCandidate},
    finalizePass thr ms = Except.ok fl →
    ∀ m ∈ ms, ∃ oe, finalizeEntry thr m = Except.ok oe
  | [], _, _, m, hm => by cases hm
  | e :: es, fl, h, m, hm => by
    unfold finalizePass at h
    cases hfe : finalizeEntry thr e with
    | error u => rw [hfe] at h; simp at h
    | ok oe =>
      cases hfp : finalizePass thr es with
      | error u => rw [hfe, hfp] at h; simp at h
      | ok rest =>
        rcases List.mem_cons.mp hm with h1 | h1
        · subst h1
          exact ⟨oe, hfe⟩
        · exact finalizePass_ok_entry hfp m h1

theorem finalizeEntry_ok_sort {thr : Int} {m : MergedCandidate}
    {oe : Option MergedCandidate} (h : finalizeEntry thr m = Except.ok oe) :
    ∃ ss, pySortSources m.sources = Except.ok ss := by
  cases hss : pySortSources m.sources with
  | error u =>
    unfold finalizeEntry at h
    rw [hss] at h
    cases h
  | ok ss => exact ⟨ss, rfl⟩

theorem eq_of_mem_nodup_keys {m1 m2 : MergedCandidate} {ms : List MergedCandidate}
    (hnd : ((ms.map (fun e => e.keyword)).Nodup)) (h1 : m1 ∈ ms) (h2 : m2 ∈ ms)
    (hk : m1.keyword = m2.keyword) : m1 = m2 := by
  have e1 := lookupKw_of_mem_nodup_keys ms hnd h1
  have e2 := lookupKw_of_mem_nodup_keys ms hnd h2
  rw [hk] at e1
  rw [e1] at e2
  simpa using e2

/-- C7: for every merged keyword group whose accumulated source set has
at least two distinct values, a successful build adds exactly `+2` to
the group's kept score, once (not per extra source), and the bonus is
applied before the threshold filter: the group reaches the output
exactly when the BONUS-ADJUSTED score `m.score + 2` meets the threshold
(so a group with merge score just below the threshold is rescued by the
bonus), and every output entry of that keyword carries `m.score + 2`. -/
theorem C7_cross_source_bonus (items : List Item) (rules : Rules)
    (res : List MergedCandidate) (m : MergedCandidate)
    (h : build_signal_candidates items rules = Except.ok res)
    (hm : m ∈ mergeRaw (rawCandidates items rules))
    (h2 : 2 ≤ m.sources.length) :
    ((∃ e ∈ res, e.keyword = m.keyword ∧ e.score = m.score + 2) ↔
      rules.score_threshold.getD 6 ≤ m.score + 2) ∧
    (∀ e ∈ res, e.keyword = m.keyword → e.score = m.score + 2) := by
  obtain ⟨fl, hfp, hres⟩ := build_ok h
  obtain ⟨oe, hoe⟩ := finalizePass_ok_entry hfp m hm
  obtain ⟨ss, hss⟩ := finalizeEntry_ok_sort hoe
  obtain ⟨hmem, hlen, hnodup, hchain⟩ := pySortSources_ok hss
  have hss2 : 2 ≤ ss.length := by omega
  have hfe := @finalizeEntry_eq_ok (rules.score_threshold.getD 6) m ss hss
  rw [if_pos hss2] at hfe
  have huniq : ∀ e ∈ res, e.keyword = m.keyword → e.score = m.score + 2 := by
    intro e he hkw
    have hefl : e ∈ fl := (sortByScoreDesc_perm fl).mem_iff.mp (hres ▸ he)
    obtain ⟨m2, hm2a, hm2b⟩ := (finalizePass_mem hfp).mp hefl
    obtain ⟨ss2, hsort2, hkw2, hsrcs2, hsc2, _, _, _, _⟩ := finalizeEntry_some hm2b
    have hmm : m2 = m := by
      refine eq_of_mem_nodup_keys (mergeRaw_keywords_nodup _) hm2a hm ?_
      rw [← hkw2, hkw]
    subst hmm
    obtain ⟨_, hlen2, _, _⟩ := pySortSources_ok hsort2
    rw [hsc2, if_pos (show 2 ≤ ss2.length by omega)]
  refine ⟨⟨?_, ?_⟩, huniq⟩
  · rintro ⟨e, he, hkw, hsc⟩
    have hefl : e ∈ fl := (sortByScoreDesc_perm fl).mem_iff.mp (hres ▸ he)
    obtain ⟨m2, hm2a, hm2b⟩ := (finalizePass_mem hfp).mp hefl
    obtain ⟨_, _, _, _, _, _, _, _, hth⟩ := finalizeEntry_some hm2b
    rw [← hsc]
    exact hth
  · intro hth
    have hsome : finalizeEntry (rules.score_threshold.getD 6) m =
        Except.ok (some { m with score := m.score + 2, sources := ss }) := by
      rw [hfe, if_pos hth]
    have hefl : ({ m with score := m.score + 2, sources := ss } : MergedCandidate) ∈ fl :=
      (finalizePass_mem hfp).mpr ⟨m, hm, hsome⟩
    refine ⟨{ m with score := m.score + 2, sources := ss }, ?_, rfl, rfl⟩
    rw [hres]
    exact (sortByScoreDesc_perm fl).mem_iff.mpr hefl

/-- C4: keyword is the merge key (each keyword appears at most once in
the output), and each entry's `sources` is exactly the set of source
tags of the non-vetoed items that produced a candidate with that
keyword, without duplicates and sorted ascending. -/
theorem C4_merge_key_and_sources (items : List Item) (rules : Rules)
    (res : List MergedCandidate)
    (h : build_signal_candidates items rules = Except.ok res) :
    ((res.map (fun e => e.keyword)).Nodup) ∧
    ∀ e ∈ res,
      (∀ src, src ∈ e.sources ↔
        ∃ it ∈ items, it.source = src ∧ e.keyword ∈ candKeywords it rules) ∧
      e.sources.Nodup ∧
      List.Chain' (fun a b => optLexLe a b = true) e.sources := by
  obtain ⟨fl, hfp, hres⟩ := build_ok h
  constructor
  · have hperm : List.Perm (res.map fun e => e.keyword) (fl.map fun e => e.keyword) := by
      rw [hres]
      exact (sortByScoreDesc_perm fl).map _
    have hsub := finalizePass_keywords hfp
    exact hperm.nodup_iff.mpr (hsub.nodup (mergeRaw_keywords_nodup _))
  · intro e he
    have hfl : e ∈ fl := (sortByScoreDesc_perm fl).mem_iff.mp (hres ▸ he)
    obtain ⟨m, hm1, hm2⟩ := (finalizePass_mem hfp).mp hfl
    obtain ⟨ss, hss, hkw, hsrcs, _, _, _, _, _⟩ := finalizeEntry_some hm2
    obtain ⟨hmemiff, hlen, hnod, hchain⟩ := pySortSources_ok hss
    have hgf := mergeRaw_group hm1
    obtain ⟨hsrc_iff, hsrc_nodup⟩ := groupFold_sources _ m hgf
    refine ⟨fun src => ?_, ?_, ?_⟩
    · rw [hsrcs, hmemiff src, hsrc_iff src, hkw]
      constructor
      · rintro ⟨c, hc1, hc2⟩
        obtain ⟨hcout, hckw⟩ := List.mem_filter.mp hc1
        have hckw2 : c.keyword = m.keyword := of_decide_eq_true hckw
        obtain ⟨it, hit, kw, hkw2, hceq⟩ := rawCandidates_mem.mp hcout
        refine ⟨it, hit, ?_, ?_⟩
        · rw [← hc2, ← hceq, mkCand_source]
        · have hkwe : kw = m.keyword := by
            rw [← hckw2, ← hceq, mkCand_keyword]
          rw [← hkwe]
          exact hkw2
      · rintro ⟨it, hit, hsrc, hkwmem⟩
        refine ⟨mkCand it rules m.keyword, ?_, ?_⟩
        · refine List.mem_filter.mpr ⟨rawCandidates_mem.mpr ⟨it, hit, m.keyword, hkwmem, rfl⟩, ?_⟩
          rw [mkCand_keyword]
          simp
        · rw [mkCand_source]
          exact hsrc
    · rw [hsrcs]
      exact hnod hsrc_nodup
    · rw [hsrcs]
      exact hchain

/-- C8: the build output is sorted by descending score (adjacent pairs),
the sort is stable (each score class keeps the pre-sort order, which is
the first-appearance order of keywords), and the merge lists keywords in
first-occurrence order of the raw candidates. -/
theorem C8_sorted_stable (items : List Item) (rules : Rules)
    (fl res : List MergedCandidate)
    (h1 : finalizePass (rules.score_threshold.getD 6)
        (mergeRaw (rawCandidates items rules)) = Except.ok fl)
    (h2 : build_signal_candidates items rules = Except.ok res) :
    List.Chain' scoreGe res ∧
    (∀ s : Int, res.filter (fun e => decide (e.score = s)) =
      fl.filter (fun e => decide (e.score = s))) ∧
    (mergeRaw (rawCandidates items rules)).map (fun e => e.keyword) =
      dedupKeepFirst ((rawCandidates items rules).map (fun c => c.keyword)) := by
  obtain ⟨fl2, hfp2, hres⟩ := build_ok h2
  rw [h1] at hfp2
  have hfl : fl2 = fl := by simpa using hfp2.symm
  subst hfl
  refine ⟨?_, ?_, mergeRaw_keywords _⟩
  · rw [hres]
    exact sortByScoreDesc_chain fl2
  · intro s
    rw [hres]
    exact sortByScoreDesc_filter fl2 s

/-! ### Witnesses for the build-level claims, on the example batch -/

/-- The pre-sort finalize output of the example batch. -/
def exFl : List MergedCandidate := [exBase, exTop]

/-- C6 witness: the top entry of the example run meets the threshold. -/
theorem C6_witness : exRules.score_threshold.getD 6 ≤ exTop.score :=
  (C6_threshold_filter exItems exRules exResult (by rfl)).1 exTop (by decide)

/-- The merged (pre-finalize) entry of the example batch for the
keyword "crazy cattle": score 7, two accumulated sources. -/
def exMergeCC : MergedCandidate :=
  { keyword := "crazy cattle", score := 7, source := some "reddit",
    evidence_title := "What game is this? Crazy Cattle 3D looks amazing",
    evidence_link := "L1",
    sources := [some "reddit", some "youtube"] }

/-- C7 witness: the two-source group of the example run appears in the
output precisely because its bonus-adjusted score 7 + 2 meets the
threshold, and its output entry carries exactly that score. -/
theorem C7_witness :
    ((∃ e ∈ exResult, e.keyword = exMergeCC.keyword ∧
        e.score = exMergeCC.score + 2) ↔
      exRules.score_threshold.getD 6 ≤ exMergeCC.score + 2) ∧
    (∀ e ∈ exResult, e.keyword = exMergeCC.keyword →
      e.score = exMergeCC.score + 2) :=
  C7_cross_source_bonus exItems exRules exResult exMergeCC (by rfl) (by decide)
    (by decide)

/-- C4 witness: keyword uniqueness and exact source accumulation on the
example run. -/
theorem C4_witness :
    ((exResult.map (fun e => e.keyword)).Nodup) ∧
    ((∀ src, src ∈ exTop.sources ↔
        ∃ it ∈ exItems, it.source = src ∧ exTop.keyword ∈ candKeywords it exRules) ∧
      exTop.sources.Nodup ∧
      List.Chain' (fun a b => optLexLe a b = true) exTop.sources) :=
  ⟨(C4_merge_key_and_sources exItems exRules exResult (by rfl)).1,
   (C4_merge_key_and_sources exItems exRules exResult (by rfl)).2 exTop (by decide)⟩

/-- C8 witness: sortedness, stability at score 9, and keyword
first-occurrence order on the example run. -/
theorem C8_witness :
    List.Chain' scoreGe exResult ∧
    (exResult.filter (fun e => decide (e.score = 9)) =
      exFl.filter (fun e => decide (e.score = 9))) ∧
    (mergeRaw (rawCandidates exItems exRules)).map (fun e => e.keyword) =
      dedupKeepFirst ((rawCandidates exItems exRules).map (fun c => c.keyword)) :=
  ⟨(C8_sorted_stable exItems exRules exFl exResult (by rfl) (by rfl)).1,
   (C8_sorted_stable exItems exRules exFl exResult (by rfl) (by rfl)).2.1 9,
   (C8_sorted_stable exItems exRules exFl exResult (by rfl) (by rfl)).2.2⟩

end SignalRadar
